import Mathlib

/-!
Shallow embedding of `openraft/src/storage.rs`: the `RaftStorage` trait's data
types and its derived (default-implemented) query methods.

A storage state is modelled by `StorageState`: the log as a list of entries
(ordered by index in a well-formed store, possibly with gaps after compaction),
the persisted hard state, and the state machine's last-applied record.  The
trait's primitive reads (`get_log_state`, `try_get_log_entries`,
`last_applied_state`, `read_hard_state`) are defined from that content
following their documented contracts; the derived methods (`get_membership`,
`last_membership_in_log`, `first_known_log_id`, `get_initial_state`,
`get_log_entries`, `try_get_log_entry`, `first_id_in_log`, `last_id_in_log`)
are translated statement-by-statement from the Rust source.

Machine integers (`u64`) are modelled as `Nat`; `saturating_sub` is `Nat`
subtraction.  `D` is the application-data type, `M` the membership-config
type (`MembershipConfig` is defined outside this file in the source crate).
-/

namespace Openraft

/-- `LogId { term: u64, index: u64 }`; ordering is lexicographic by
`(term, index)`, as derived in the source crate. -/
structure LogId where
  term : Nat
  index : Nat
deriving DecidableEq, Repr

/-- `a ≤ b` for `LogId`, lexicographic by `(term, index)` (Rust `derive(Ord)`). -/
def logIdLeb (a b : LogId) : Bool :=
  decide (a.term < b.term) || (decide (a.term = b.term) && decide (a.index ≤ b.index))

/-- `a ≤ b` on `Option LogId` with Rust's `Option` ordering: `None` is the
minimum element. -/
def optLogIdLeb : Option LogId → Option LogId → Bool
  | none, _ => true
  | some _, none => false
  | some a, some b => logIdLeb a b

/-- Rust `std::cmp::max` on `Option LogId`: returns the greater value, the
second argument when they are equal. -/
def cmpMaxOpt (a b : Option LogId) : Option LogId :=
  if optLogIdLeb a b then b else a

/-- Rust `std::cmp::min` on `Option LogId`: returns the smaller value, the
first argument when they are equal. -/
def cmpMinOpt (a b : Option LogId) : Option LogId :=
  if optLogIdLeb a b then a else b

/-- `HardState { current_term: u64, voted_for: Option<NodeId> }`.  `NodeId` is
a `u64`, modelled as `Nat`. -/
structure HardState where
  current_term : Nat
  voted_for : Option Nat
deriving DecidableEq, Repr

/-- `HardState::default()`: the zeroed record produced by `derive(Default)`. -/
def HardState.default : HardState :=
  { current_term := 0, voted_for := none }

/-- `EntryPayload<D>` from `crate::raft`: blank, normal application data, or a
membership change carrying a config of type `M`. -/
inductive EntryPayload (D M : Type) where
  | Blank : EntryPayload D M
  | Normal (data : D) : EntryPayload D M
  | Membership (mem : M) : EntryPayload D M
deriving DecidableEq

/-- `Entry<D>` from `crate::raft`: a log id paired with a payload. -/
structure Entry (D M : Type) where
  log_id : LogId
  payload : EntryPayload D M
deriving DecidableEq

/-- `EffectiveMembership { log_id, membership }` from `crate::core`. -/
structure EffectiveMembership (M : Type) where
  log_id : LogId
  membership : M
deriving DecidableEq

/-- `InitialState`: the derived startup record assembled by
`get_initial_state`. -/
structure InitialState (M : Type) where
  last_log_id : Option LogId
  last_applied : Option LogId
  hard_state : HardState
  last_membership : Option (EffectiveMembership M)
deriving DecidableEq

/-- The minimal `StorageError` taxonomy this file's derived methods can
produce: `get_log_entries` fails with a range-mismatch error. -/
inductive StorageError where
  | rangeNotMatch (start stop : Nat) : StorageError
deriving DecidableEq

/-- The durable content behind one `RaftStorage` implementation: the log
entries (in storage order), the persisted hard state, and the state machine's
last-applied log id and membership record. -/
structure StorageState (D M : Type) where
  log : List (Entry D M)
  hard_state : Option HardState
  last_applied : Option LogId
  sm_membership : Option (EffectiveMembership M)

variable {D M : Type}

/-- Primitive `read_hard_state()`: the persisted vote/term record, if any. -/
def read_hard_state (s : StorageState D M) : Option HardState :=
  s.hard_state

/-- Primitive `get_log_state()`: the first and last log id currently in the
log, without consulting the state machine. -/
def get_log_state (s : StorageState D M) : Option LogId × Option LogId :=
  (s.log.head?.map Entry.log_id, s.log.getLast?.map Entry.log_id)

/-- Primitive `try_get_log_entries(start..stop)`: the entries whose index
falls in `[start, stop)`; absent entries are silently omitted. -/
def try_get_log_entries (s : StorageState D M) (start stop : Nat) : List (Entry D M) :=
  s.log.filter fun ent =>
    decide (start ≤ ent.log_id.index) && decide (ent.log_id.index < stop)

/-- Primitive `last_applied_state()`: the last applied log id and the last
applied membership, as recorded in the state machine. -/
def last_applied_state (s : StorageState D M) :
    Option LogId × Option (EffectiveMembership M) :=
  (s.last_applied, s.sm_membership)

/-- Whether an entry's payload is `EntryPayload::Membership`. -/
def entryIsMembership (ent : Entry D M) : Bool :=
  match ent.payload with
  | EntryPayload.Membership _ => true
  | _ => false

/-- `for ent in entries.iter().rev() { if let Membership(mem) = ent.payload
{ return Some(...) } }`: the last entry of the list whose payload is a
membership change, as an `EffectiveMembership`. -/
def find_membership_rev : List (Entry D M) → Option (EffectiveMembership M)
  | [] => none
  | ent :: rest =>
    match find_membership_rev rest with
    | some em => some em
    | none =>
      match ent.payload with
      | EntryPayload.Membership mem => some { log_id := ent.log_id, membership := mem }
      | _ => none

/-- The `while start < end` loop of `last_membership_in_log`: fetch
`[start, e)`, scan it tail-first for a membership entry, return it if found,
else `e = e.saturating_sub(64)` and repeat. -/
def scanLoop (s : StorageState D M) (start : Nat) (e : Nat) :
    Option (EffectiveMembership M) :=
  if _h : start < e then
    match find_membership_rev (try_get_log_entries s start e) with
    | some em => some em
    | none => scanLoop s start (e - 64)
  else
    none
termination_by e
decreasing_by simp_wf; omega

/-- `last_membership_in_log(since_index)`: empty log returns `None`
immediately; otherwise scan `[max(first.index, since_index), last.index + 1)`
backwards for the latest membership entry.  The `last_log_id.unwrap()` of the
source is modelled by the third branch, proven unreachable (see
`last_membership_in_log_total`). -/
def last_membership_in_log (s : StorageState D M) (since_index : Nat) :
    Option (EffectiveMembership M) :=
  match (get_log_state s).1, (get_log_state s).2 with
  | none, _ => none
  | some first, some last =>
    scanLoop s (max first.index since_index) (last.index + 1)
  | some _, none => none

/-- `last_membership_in_log` with the `unwrap` made explicit: the outer
`none` marks the panic branch taken when the first bound is present but the
last bound is not. -/
def last_membership_in_log_checked (s : StorageState D M) (since_index : Nat) :
    Option (Option (EffectiveMembership M)) :=
  match (get_log_state s).1, (get_log_state s).2 with
  | none, _ => some none
  | some first, some last =>
    some (scanLoop s (max first.index since_index) (last.index + 1))
  | some _, none => none

/-- `get_membership()`: prefer the latest membership entry still in the log at
index `>= sm_index + 1`; fall back to the state machine's membership. -/
def get_membership (s : StorageState D M) : Option (EffectiveMembership M) :=
  let sm_mem := (last_applied_state s).2
  let sm_mem_index :=
    match sm_mem with
    | none => 0
    | some mem => mem.log_id.index
  let log_mem := last_membership_in_log s (sm_mem_index + 1)
  if log_mem.isSome then log_mem else sm_mem

/-- `first_id_in_log()`: projection of `get_log_state`. -/
def first_id_in_log (s : StorageState D M) : Option LogId :=
  (get_log_state s).1

/-- `last_id_in_log()`: projection of `get_log_state`. -/
def last_id_in_log (s : StorageState D M) : Option LogId :=
  (get_log_state s).2

/-- `first_known_log_id()`: the earliest log id known from the log or the
state machine. -/
def first_known_log_id (s : StorageState D M) : Option LogId :=
  let last_applied := (last_applied_state s).1
  let first := (get_log_state s).1
  if last_applied.isNone then first
  else if first.isNone then last_applied
  else cmpMinOpt first last_applied

/-- `get_initial_state()`: hard state (defaulted if never written),
`last_log_id = max(last_applied, last_id_in_log)`, and the resolved
membership. -/
def get_initial_state (s : StorageState D M) : InitialState M :=
  let hs := read_hard_state s
  let last_applied := (last_applied_state s).1
  let last_log_id := cmpMaxOpt last_applied (last_id_in_log s)
  let membership := get_membership s
  { last_log_id := last_log_id
    last_applied := last_applied
    hard_state := hs.getD HardState.default
    last_membership := membership }

/-- Modelled from the spec: `check_range_matches_entries` is defined in
`crate::defensive`, whose source is not part of this file.  Per the spec, it
verifies that every index of the requested range `[start, stop)` that should
exist per the known log bounds is present among the returned entries, and
reports a mismatch otherwise. -/
def check_range_matches_entries (first last : Option LogId) (start stop : Nat)
    (entries : List (Entry D M)) : Bool :=
  match first, last with
  | some f, some l =>
    (List.range' start (stop - start)).all fun i =>
      !(decide (f.index ≤ i) && decide (i ≤ l.index)) ||
        entries.any fun ent => ent.log_id.index == i
  | _, _ => true

/-- `get_log_entries(range)`: `try_get_log_entries` followed by the defensive
range check; fails with a range-mismatch error when an expected entry is
missing. -/
def get_log_entries (s : StorageState D M) (start stop : Nat) :
    Except StorageError (List (Entry D M)) :=
  let res := try_get_log_entries s start stop
  if check_range_matches_entries (get_log_state s).1 (get_log_state s).2 start stop res
  then Except.ok res
  else Except.error (StorageError.rangeNotMatch start stop)

/-- `try_get_log_entry(log_index)`: fetch the single-entry range
`[log_index, log_index + 1)` and `pop()` the resulting vector (its last
element, if any). -/
def try_get_log_entry (s : StorageState D M) (log_index : Nat) : Option (Entry D M) :=
  (try_get_log_entries s log_index (log_index + 1)).getLast?

/-- Spec-side definition for the chunk-size-independence property: the
backward scan loop with an injectable chunk size `step`, written with explicit
fuel (the loop in the source runs at most `e` iterations since each iteration
shrinks `e` by at least one). `none` means the fuel ran out. -/
def scanLoopStepFuel (s : StorageState D M) (step start : Nat) :
    Nat → Nat → Option (Option (EffectiveMembership M))
  | 0, e => if start < e then none else some none
  | fuel + 1, e =>
    if start < e then
      match find_membership_rev (try_get_log_entries s start e) with
      | some em => some (some em)
      | none => scanLoopStepFuel s step start fuel (e - step)
    else some none

/-- Spec-side definition: `last_membership_in_log` with an injectable chunk
size `step` in place of the constant 64, fuelled by `last.index + 1`. -/
def last_membership_in_log_chunk (s : StorageState D M) (step since_index : Nat) :
    Option (Option (EffectiveMembership M)) :=
  match (get_log_state s).1, (get_log_state s).2 with
  | none, _ => some none
  | some first, some last =>
    scanLoopStepFuel s step (max first.index since_index)
      (last.index + 1) (last.index + 1)
  | some _, none => none

/-- Well-formedness of a store's log: entries are in strictly increasing
index order (the log may still have gaps after compaction). -/
def LogSorted (l : List (Entry D M)) : Prop :=
  List.Pairwise (fun a b => a.log_id.index < b.log_id.index) l

/-- The specification predicate for the membership scans: `r` is the
membership-change entry of `log` with the greatest index `≥ since`, or `none`
when there is no such entry. -/
def IsLatestMembershipSince (log : List (Entry D M)) (since : Nat) :
    Option (EffectiveMembership M) → Prop
  | none => ∀ ent ∈ log, since ≤ ent.log_id.index → entryIsMembership ent = false
  | some em =>
    (∃ ent ∈ log, ent.log_id = em.log_id ∧
      ent.payload = EntryPayload.Membership em.membership) ∧
    since ≤ em.log_id.index ∧
    ∀ ent ∈ log, since ≤ ent.log_id.index → entryIsMembership ent = true →
      ent.log_id.index ≤ em.log_id.index

/-- An index the strict range query expects to be present: inside the
requested range and inside the known log bounds. -/
def indexShouldExist (s : StorageState D M) (start stop i : Nat) : Prop :=
  start ≤ i ∧ i < stop ∧
    match (get_log_state s).1, (get_log_state s).2 with
    | some f, some l => f.index ≤ i ∧ i ≤ l.index
    | _, _ => False

/-- Concrete store used to exercise `get_membership`: membership entries at
indices 2 and 6, state machine applied through index 2. -/
def demoC1 : StorageState Nat Nat :=
  { log := [{ log_id := { term := 1, index := 1 }, payload := EntryPayload.Blank },
            { log_id := { term := 1, index := 2 }, payload := EntryPayload.Membership 7 },
            { log_id := { term := 2, index := 5 }, payload := EntryPayload.Normal 3 },
            { log_id := { term := 2, index := 6 }, payload := EntryPayload.Membership 9 }]
    hard_state := none
    last_applied := some { term := 1, index := 2 }
    sm_membership := some { log_id := { term := 1, index := 2 }, membership := 7 } }

/-- Concrete store used to exercise `last_membership_in_log`. -/
def demoC2 : StorageState Nat Nat :=
  { log := [{ log_id := { term := 1, index := 4 }, payload := EntryPayload.Membership 5 },
            { log_id := { term := 1, index := 9 }, payload := EntryPayload.Normal 0 },
            { log_id := { term := 3, index := 70 }, payload := EntryPayload.Membership 8 },
            { log_id := { term := 3, index := 81 }, payload := EntryPayload.Normal 1 }]
    hard_state := none
    last_applied := none
    sm_membership := none }

/-- The gap store of the spec: `last_applied` at index 100, log compacted so
that its first entry is at index 105. -/
def demoGap : StorageState Nat Nat :=
  { log := [{ log_id := { term := 2, index := 105 }, payload := EntryPayload.Normal 0 },
            { log_id := { term := 2, index := 106 }, payload := EntryPayload.Normal 1 }]
    hard_state := none
    last_applied := some { term := 2, index := 100 }
    sm_membership := none }

/-- The lenient-vs-strict store of the spec: entries at indices 1, 2, 5, 6
with 3 and 4 compacted away. -/
def demoC5 : StorageState Nat Nat :=
  { log := [{ log_id := { term := 1, index := 1 }, payload := EntryPayload.Normal 1 },
            { log_id := { term := 1, index := 2 }, payload := EntryPayload.Normal 2 },
            { log_id := { term := 1, index := 5 }, payload := EntryPayload.Normal 5 },
            { log_id := { term := 1, index := 6 }, payload := EntryPayload.Normal 6 }]
    hard_state := none
    last_applied := none
    sm_membership := none }

/-- Concrete store used to exercise the chunked scan with chunk size 3. -/
def demoC6 : StorageState Nat Nat :=
  { log := [{ log_id := { term := 1, index := 0 }, payload := EntryPayload.Membership 4 },
            { log_id := { term := 1, index := 1 }, payload := EntryPayload.Normal 0 },
            { log_id := { term := 1, index := 2 }, payload := EntryPayload.Normal 0 },
            { log_id := { term := 1, index := 3 }, payload := EntryPayload.Normal 0 },
            { log_id := { term := 1, index := 4 }, payload := EntryPayload.Normal 0 }]
    hard_state := none
    last_applied := none
    sm_membership := none }

/-- Concrete store used to exercise `get_initial_state` determinism. -/
def demoC7 : StorageState Nat Nat :=
  { log := [{ log_id := { term := 1, index := 3 }, payload := EntryPayload.Membership 2 }]
    hard_state := some { current_term := 4, voted_for := some 1 }
    last_applied := some { term := 1, index := 3 }
    sm_membership := some { log_id := { term := 1, index := 3 }, membership := 2 } }

/-- Concrete store used to exercise `try_get_log_entry`. -/
def demoC8 : StorageState Nat Nat :=
  { log := [{ log_id := { term := 1, index := 1 }, payload := EntryPayload.Normal 1 },
            { log_id := { term := 2, index := 5 }, payload := EntryPayload.Normal 3 },
            { log_id := { term := 2, index := 6 }, payload := EntryPayload.Blank }]
    hard_state := none
    last_applied := none
    sm_membership := none }

instance (l : List (Entry D M)) : Decidable (LogSorted l) :=
  inferInstanceAs (Decidable (List.Pairwise _ l))

/-! ### Helper lemmas -/

theorem logIdLeb_refl (a : LogId) : logIdLeb a a = true := by
  simp [logIdLeb]

theorem logIdLeb_total (a b : LogId) : logIdLeb a b = true ∨ logIdLeb b a = true := by
  simp only [logIdLeb, Bool.or_eq_true, Bool.and_eq_true, decide_eq_true_eq]
  omega

theorem optLogIdLeb_refl (a : Option LogId) : optLogIdLeb a a = true := by
  cases a with
  | none => rfl
  | some x => exact logIdLeb_refl x

theorem optLogIdLeb_total (a b : Option LogId) :
    optLogIdLeb a b = true ∨ optLogIdLeb b a = true := by
  cases a with
  | none => left; rfl
  | some x =>
    cases b with
    | none => right; rfl
    | some y => exact logIdLeb_total x y

theorem mem_try_get_log_entries {s : StorageState D M} {start stop : Nat}
    {ent : Entry D M} :
    ent ∈ try_get_log_entries s start stop ↔
      ent ∈ s.log ∧ start ≤ ent.log_id.index ∧ ent.log_id.index < stop := by
  simp [try_get_log_entries, List.mem_filter]

theorem find_membership_rev_eq_none {l : List (Entry D M)} :
    find_membership_rev l = none ↔ ∀ ent ∈ l, entryIsMembership ent = false := by
  induction l with
  | nil => simp [find_membership_rev]
  | cons ent rest ih =>
    simp only [find_membership_rev, List.forall_mem_cons]
    cases hfind : find_membership_rev rest with
    | some em =>
      constructor
      · intro h; exact Option.noConfusion h
      · rintro ⟨_, h2⟩
        exact absurd (ih.mpr h2) (by simp [hfind])
    | none =>
      have hrest := ih.mp hfind
      cases hp : ent.payload with
      | Membership mem =>
        constructor
        · intro h; exact Option.noConfusion h
        · rintro ⟨h1, _⟩
          simp [entryIsMembership, hp] at h1
      | Blank =>
        exact iff_of_true rfl ⟨by simp [entryIsMembership, hp], hrest⟩
      | Normal d =>
        exact iff_of_true rfl ⟨by simp [entryIsMembership, hp], hrest⟩

theorem find_membership_rev_mem {l : List (Entry D M)} {em : EffectiveMembership M}
    (h : find_membership_rev l = some em) :
    ∃ ent ∈ l, ent.log_id = em.log_id ∧
      ent.payload = EntryPayload.Membership em.membership := by
  induction l with
  | nil => exact Option.noConfusion h
  | cons ent rest ih =>
    rw [find_membership_rev] at h
    cases hfind : find_membership_rev rest with
    | some em' =>
      rw [hfind] at h
      have hem : em' = em := Option.some.inj h
      obtain ⟨e, he, h1, h2⟩ := ih (hem ▸ hfind)
      exact ⟨e, List.mem_cons_of_mem _ he, h1, h2⟩
    | none =>
      rw [hfind] at h
      cases hp : ent.payload with
      | Membership mem =>
        rw [hp] at h
        have hem : ({ log_id := ent.log_id, membership := mem } : EffectiveMembership M) = em :=
          Option.some.inj h
        refine ⟨ent, List.mem_cons_self _ _, ?_, ?_⟩
        · rw [← hem]
        · rw [hp, ← hem]
      | Blank => rw [hp] at h; exact Option.noConfusion h
      | Normal d => rw [hp] at h; exact Option.noConfusion h

theorem find_membership_rev_greatest {l : List (Entry D M)} {em : EffectiveMembership M}
    (hs : LogSorted l) (h : find_membership_rev l = some em) :
    ∀ ent ∈ l, entryIsMembership ent = true → ent.log_id.index ≤ em.log_id.index := by
  induction l with
  | nil => exact fun ent he _ => absurd he (List.not_mem_nil ent)
  | cons e0 rest ih =>
    rw [find_membership_rev] at h
    rw [LogSorted, List.pairwise_cons] at hs
    intro ent hent hmem
    cases hfind : find_membership_rev rest with
    | some em' =>
      rw [hfind] at h
      have hem : em' = em := Option.some.inj h
      subst hem
      obtain ⟨e', he', hid, _⟩ := find_membership_rev_mem hfind
      rcases List.mem_cons.mp hent with h1 | h1
      · subst h1
        have h2 := hs.1 e' he'
        have h3 : e'.log_id.index = em'.log_id.index := by rw [hid]
        omega
      · exact ih hs.2 hfind ent h1 hmem
    | none =>
      rw [hfind] at h
      cases hp : e0.payload with
      | Membership mem =>
        rw [hp] at h
        have hem : ({ log_id := e0.log_id, membership := mem } : EffectiveMembership M) = em :=
          Option.some.inj h
        rcases List.mem_cons.mp hent with h1 | h1
        · subst h1
          rw [← hem]
        · have h2 := find_membership_rev_eq_none.mp hfind ent h1
          rw [h2] at hmem
          exact Bool.noConfusion hmem
      | Blank => rw [hp] at h; exact Option.noConfusion h
      | Normal d => rw [hp] at h; exact Option.noConfusion h

theorem find_membership_rev_none_of_subset {l l' : List (Entry D M)}
    (hsub : ∀ ent ∈ l', ent ∈ l) (h : find_membership_rev l = none) :
    find_membership_rev l' = none := by
  rw [find_membership_rev_eq_none] at h ⊢
  exact fun ent he => h ent (hsub ent he)

theorem try_get_log_entries_mono {s : StorageState D M} {start e' e : Nat}
    (h : e' ≤ e) :
    ∀ ent ∈ try_get_log_entries s start e', ent ∈ try_get_log_entries s start e := by
  intro ent hent
  rw [mem_try_get_log_entries] at hent ⊢
  exact ⟨hent.1, hent.2.1, Nat.lt_of_lt_of_le hent.2.2 h⟩

theorem try_get_log_entries_empty {s : StorageState D M} {start e : Nat}
    (h : ¬ start < e) : try_get_log_entries s start e = [] := by
  rw [try_get_log_entries, List.filter_eq_nil_iff]
  intro ent _
  simp only [Bool.and_eq_true, decide_eq_true_eq, not_and]
  omega

/-- The while loop computes exactly a reverse scan of the whole window
`[start, e)`: its first iteration already fetches the full window, and later
iterations only fetch sub-windows. -/
theorem scanLoop_eq_find (s : StorageState D M) (start : Nat) :
    ∀ e, scanLoop s start e = find_membership_rev (try_get_log_entries s start e) := by
  intro e
  induction e using Nat.strong_induction_on with
  | _ e ih =>
    rw [scanLoop]
    by_cases h : start < e
    · simp only [h, dite_true]
      cases hfind : find_membership_rev (try_get_log_entries s start e) with
      | some em => rfl
      | none =>
        rw [ih (e - 64) (by omega)]
        exact find_membership_rev_none_of_subset
          (try_get_log_entries_mono (by omega)) hfind
    · simp only [h, dite_false]
      rw [try_get_log_entries_empty h, find_membership_rev]

/-- With chunk size at least one, fuel `e` is enough for the generic loop, and
it computes the same full-window reverse scan. -/
theorem scanLoopStepFuel_eq (s : StorageState D M) (step start : Nat)
    (hstep : 1 ≤ step) :
    ∀ fuel e, e ≤ fuel →
      scanLoopStepFuel s step start fuel e =
        some (find_membership_rev (try_get_log_entries s start e)) := by
  intro fuel
  induction fuel with
  | zero =>
    intro e he
    have he0 : e = 0 := Nat.le_zero.mp he
    subst he0
    rw [scanLoopStepFuel]
    have h : ¬ start < 0 := Nat.not_lt_zero start
    simp only [h, if_false]
    rw [try_get_log_entries_empty h, find_membership_rev]
  | succ fuel ih =>
    intro e he
    rw [scanLoopStepFuel]
    by_cases h : start < e
    · simp only [h, if_true]
      cases hfind : find_membership_rev (try_get_log_entries s start e) with
      | some em => rfl
      | none =>
        rw [ih (e - step) (by omega)]
        rw [find_membership_rev_none_of_subset
          (try_get_log_entries_mono (Nat.sub_le e step)) hfind]
    · simp only [h, if_false]
      rw [try_get_log_entries_empty h, find_membership_rev]

theorem sorted_head_le {l : List (Entry D M)} {a : Entry D M}
    (hs : LogSorted l) (h : l.head? = some a) :
    ∀ ent ∈ l, a.log_id.index ≤ ent.log_id.index := by
  cases l with
  | nil => exact Option.noConfusion h
  | cons e0 rest =>
    have ha : e0 = a := Option.some.inj h
    subst ha
    rw [LogSorted, List.pairwise_cons] at hs
    intro ent hent
    rcases List.mem_cons.mp hent with h1 | h1
    · rw [h1]
    · exact Nat.le_of_lt (hs.1 ent h1)

theorem sorted_le_getLast {l : List (Entry D M)} {b : Entry D M}
    (hs : LogSorted l) (h : l.getLast? = some b) :
    ∀ ent ∈ l, ent.log_id.index ≤ b.log_id.index := by
  induction l with
  | nil => exact Option.noConfusion h
  | cons e0 rest ih =>
    rw [LogSorted, List.pairwise_cons] at hs
    intro ent hent
    cases rest with
    | nil =>
      have hb : e0 = b := Option.some.inj h
      subst hb
      rcases List.mem_cons.mp hent with h1 | h1
      · rw [h1]
      · exact absurd h1 (List.not_mem_nil ent)
    | cons e1 rest' =>
      rw [List.getLast?_cons_cons] at h
      have hbmem : b ∈ e1 :: rest' := List.mem_of_getLast?_eq_some h
      rcases List.mem_cons.mp hent with h1 | h1
      · rw [h1]
        exact Nat.le_of_lt (hs.1 b hbmem)
      · exact ih hs.2 h ent h1

theorem sorted_index_inj {l : List (Entry D M)} {e1 e2 : Entry D M}
    (hs : LogSorted l) (h1 : e1 ∈ l) (h2 : e2 ∈ l)
    (hidx : e1.log_id.index = e2.log_id.index) : e1 = e2 := by
  induction l with
  | nil => exact absurd h1 (List.not_mem_nil e1)
  | cons e0 rest ih =>
    rw [LogSorted, List.pairwise_cons] at hs
    rcases List.mem_cons.mp h1 with ha | ha <;> rcases List.mem_cons.mp h2 with hb | hb
    · rw [ha, hb]
    · subst ha
      have := hs.1 e2 hb
      omega
    · subst hb
      have := hs.1 e1 ha
      omega
    · exact ih hs.2 ha hb

theorem last_membership_in_log_eq_find (s : StorageState D M) (since : Nat)
    (hs : LogSorted s.log) :
    last_membership_in_log s since =
      find_membership_rev (s.log.filter fun ent => decide (since ≤ ent.log_id.index)) := by
  cases hhead : s.log.head? with
  | none =>
    have hnil : s.log = [] := List.head?_eq_none_iff.mp hhead
    have hstate : get_log_state s = (none, none) := by
      rw [get_log_state, hnil]; rfl
    rw [last_membership_in_log, hstate, hnil]
    rfl
  | some e0 =>
    have hne : s.log ≠ [] := by
      intro hnil; rw [hnil] at hhead; exact Option.noConfusion hhead
    obtain ⟨b, hb⟩ := Option.isSome_iff_exists.mp (List.getLast?_isSome.mpr hne)
    have hstate : get_log_state s = (some e0.log_id, some b.log_id) := by
      rw [get_log_state, hhead, hb]; rfl
    rw [last_membership_in_log, hstate]
    show scanLoop s (max e0.log_id.index since) (b.log_id.index + 1) = _
    rw [scanLoop_eq_find, try_get_log_entries]
    refine congrArg find_membership_rev (List.filter_congr ?_)
    intro ent hent
    have h1 := sorted_head_le hs hhead ent hent
    have h2 := sorted_le_getLast hs hb ent hent
    rw [← Bool.decide_and, decide_eq_decide]
    omega

theorem find_filter_latest {log : List (Entry D M)} (since : Nat) (hs : LogSorted log) :
    IsLatestMembershipSince log since
      (find_membership_rev (log.filter fun ent => decide (since ≤ ent.log_id.index))) := by
  cases hfind : find_membership_rev (log.filter fun ent => decide (since ≤ ent.log_id.index)) with
  | none =>
    simp only [IsLatestMembershipSince]
    intro ent hent hsince
    have hmem : ent ∈ log.filter fun ent => decide (since ≤ ent.log_id.index) :=
      List.mem_filter.mpr ⟨hent, by simpa using hsince⟩
    exact find_membership_rev_eq_none.mp hfind ent hmem
  | some em =>
    obtain ⟨ent, hentf, hid, hpay⟩ := find_membership_rev_mem hfind
    have hmemlog := List.mem_filter.mp hentf
    refine ⟨⟨ent, hmemlog.1, hid, hpay⟩, ?_, ?_⟩
    · have h2 := hmemlog.2
      rw [← hid]
      simpa using h2
    · intro e he hsince hmem
      have hef : e ∈ log.filter fun ent => decide (since ≤ ent.log_id.index) :=
        List.mem_filter.mpr ⟨he, by simpa using hsince⟩
      exact find_membership_rev_greatest (hs.filter _) hfind e hef hmem

/-! ### Claim theorems -/

/-- Claim C2: for every storage state and `since_index`,
`last_membership_in_log(since_index)` — the backward chunked scan over
`[max(first.index, since_index), last.index + 1)` shrinking `end` by 64 —
returns the membership-change entry with the greatest log index
`≥ since_index` present in the log, or empty if there is none (in particular
it returns empty immediately on an empty log). -/
theorem last_membership_in_log_latest (s : StorageState D M) (since : Nat)
    (h : LogSorted s.log) :
    IsLatestMembershipSince s.log since (last_membership_in_log s since) := by
  rw [last_membership_in_log_eq_find s since h]
  exact find_filter_latest since h

theorem last_membership_in_log_latest_witness :
    LogSorted demoC2.log ∧
      IsLatestMembershipSince demoC2.log 5 (last_membership_in_log demoC2 5) :=
  ⟨by decide, last_membership_in_log_latest demoC2 5 (by decide)⟩

/-- Claim C9: in every storage state a present first log bound implies a
present last log bound, so the `last_log_id.unwrap()` inside
`last_membership_in_log` never panics: the checked variant always returns a
value and agrees with the total function. -/
theorem last_membership_in_log_total (s : StorageState D M) (since : Nat) :
    (((get_log_state s).1).isSome = true → ((get_log_state s).2).isSome = true) ∧
      last_membership_in_log_checked s since = some (last_membership_in_log s since) := by
  cases hhead : s.log.head? with
  | none =>
    have hnil : s.log = [] := List.head?_eq_none_iff.mp hhead
    have hstate : get_log_state s = (none, none) := by
      rw [get_log_state, hnil]; rfl
    constructor
    · rw [hstate]; exact id
    · simp only [last_membership_in_log_checked, last_membership_in_log, hstate]
  | some e0 =>
    have hne : s.log ≠ [] := fun hnil => Option.noConfusion (hnil ▸ hhead)
    obtain ⟨b, hb⟩ := Option.isSome_iff_exists.mp (List.getLast?_isSome.mpr hne)
    have hstate : get_log_state s = (some e0.log_id, some b.log_id) := by
      rw [get_log_state, hhead, hb]; rfl
    constructor
    · rw [hstate]; exact fun _ => rfl
    · simp only [last_membership_in_log_checked, last_membership_in_log, hstate]

/-- Claim C10: the backward scan loop terminates for every pair of bounds:
each iteration that does not return strictly shrinks `end` (Nat saturating
subtraction of 64), so `end` itself bounds the number of iterations — the
fuelled loop with fuel `e` never runs out and computes `scanLoop`. -/
theorem scan_loop_terminates (s : StorageState D M) (start e : Nat) :
    (start < e → e - 64 < e) ∧
      scanLoopStepFuel s 64 start e e = some (scanLoop s start e) := by
  refine ⟨fun h => by omega, ?_⟩
  rw [scanLoopStepFuel_eq s 64 start (by omega) e e (Nat.le_refl e), scanLoop_eq_find]

/-- Claim C6: the result of the backward scan is independent of the
(positive) chunk size: the chunked variant with any `step ≥ 1` agrees with
the source's step-64 function on every storage state and `since_index`. -/
theorem last_membership_chunk_independent (s : StorageState D M) (step since : Nat)
    (hstep : 1 ≤ step) :
    last_membership_in_log_chunk s step since = some (last_membership_in_log s since) := by
  cases hhead : s.log.head? with
  | none =>
    have hnil : s.log = [] := List.head?_eq_none_iff.mp hhead
    have hstate : get_log_state s = (none, none) := by
      rw [get_log_state, hnil]; rfl
    simp only [last_membership_in_log_chunk, last_membership_in_log, hstate]
  | some e0 =>
    have hne : s.log ≠ [] := fun hnil => Option.noConfusion (hnil ▸ hhead)
    obtain ⟨b, hb⟩ := Option.isSome_iff_exists.mp (List.getLast?_isSome.mpr hne)
    have hstate : get_log_state s = (some e0.log_id, some b.log_id) := by
      rw [get_log_state, hhead, hb]; rfl
    simp only [last_membership_in_log_chunk, last_membership_in_log, hstate]
    rw [scanLoopStepFuel_eq s step _ hstep _ _ (Nat.le_refl _), scanLoop_eq_find]

theorem last_membership_chunk_independent_witness :
    1 ≤ 3 ∧
      last_membership_in_log_chunk demoC6 3 0 = some (last_membership_in_log demoC6 0) :=
  ⟨by decide, last_membership_chunk_independent demoC6 3 0 (by decide)⟩

/-- `get_membership` written with the state machine's membership index made
explicit: it is the scan result at `sm_index + 1` when that is non-empty, and
the state machine's membership otherwise. -/
theorem get_membership_eq_cases (s : StorageState D M) :
    get_membership s =
      if (last_membership_in_log s
          ((((last_applied_state s).2).map fun mem => mem.log_id.index).getD 0 + 1)).isSome
      then last_membership_in_log s
          ((((last_applied_state s).2).map fun mem => mem.log_id.index).getD 0 + 1)
      else (last_applied_state s).2 := by
  cases hsm : (last_applied_state s).2 with
  | none =>
    simp only [get_membership, hsm, Option.map_none', Option.getD_none]
  | some mem =>
    simp only [get_membership, hsm, Option.map_some', Option.getD_some]

/-- Claim C1: `get_membership()` returns the membership entry found in the
log with the greatest index `≥ sm_index + 1` when one exists (never the state
machine's membership in that case), and the state machine's membership
otherwise. -/
theorem get_membership_latest (s : StorageState D M) (k : Nat) (h : LogSorted s.log)
    (hk : (((last_applied_state s).2).map fun mem => mem.log_id.index).getD 0 = k) :
    ((∃ ent ∈ s.log, entryIsMembership ent = true ∧ k + 1 ≤ ent.log_id.index) →
      get_membership s = last_membership_in_log s (k + 1) ∧
      IsLatestMembershipSince s.log (k + 1) (get_membership s) ∧
      (get_membership s).isSome = true) ∧
    ((∀ ent ∈ s.log, entryIsMembership ent = true → ent.log_id.index < k + 1) →
      get_membership s = (last_applied_state s).2) := by
  have hlat : IsLatestMembershipSince s.log (k + 1) (last_membership_in_log s (k + 1)) := by
    rw [last_membership_in_log_eq_find s (k + 1) h]
    exact find_filter_latest (k + 1) h
  have hgm := get_membership_eq_cases s
  rw [hk] at hgm
  constructor
  · rintro ⟨ent, hent, hmem, hge⟩
    cases hlm : last_membership_in_log s (k + 1) with
    | none =>
      exfalso
      rw [hlm] at hlat
      simp only [IsLatestMembershipSince] at hlat
      have hfalse := hlat ent hent hge
      rw [hmem] at hfalse
      exact Bool.noConfusion hfalse
    | some em =>
      have hsome : get_membership s = some em := by
        rw [hgm, hlm]
        rfl
      refine ⟨hsome, ?_, ?_⟩
      · rw [hsome]
        rw [hlm] at hlat
        exact hlat
      · rw [hsome]
        rfl
  · intro hall
    cases hlm : last_membership_in_log s (k + 1) with
    | none =>
      rw [hgm, hlm]
      rfl
    | some em =>
      exfalso
      rw [hlm] at hlat
      simp only [IsLatestMembershipSince] at hlat
      obtain ⟨⟨ent, hent, hid, hpay⟩, hge, -⟩ := hlat
      have hm : entryIsMembership ent = true := by
        simp [entryIsMembership, hpay]
      have hlt := hall ent hent hm
      have hidx : ent.log_id.index = em.log_id.index := by rw [hid]
      omega

theorem get_membership_latest_witness :
    LogSorted demoC1.log ∧
      ((((last_applied_state demoC1).2).map fun mem => mem.log_id.index).getD 0 = 2) ∧
      get_membership demoC1 = last_membership_in_log demoC1 (2 + 1) ∧
      (get_membership demoC1).isSome = true := by
  have h := get_membership_latest demoC1 2 (by decide) (by decide)
  obtain ⟨h1, -, h3⟩ := h.1
    ⟨{ log_id := { term := 2, index := 6 }, payload := EntryPayload.Membership 9 },
      by decide, by decide, by decide⟩
  exact ⟨by decide, by decide, h1, h3⟩

/-- Claim C3: `get_initial_state()` assembles an `InitialState` whose
`last_applied` is the state machine's record, whose `hard_state` is the
stored hard state or the zeroed default, whose `last_membership` is
`get_membership()`, and whose `last_log_id` is `max(last_applied,
last_id_in_log)` with `None` as the minimum element: an upper bound of both
that is one of the two. -/
theorem get_initial_state_fields (s : StorageState D M) :
    (get_initial_state s).last_applied = (last_applied_state s).1 ∧
    (get_initial_state s).last_membership = get_membership s ∧
    (read_hard_state s = none →
      (get_initial_state s).hard_state = { current_term := 0, voted_for := none }) ∧
    (∀ hsv, read_hard_state s = some hsv → (get_initial_state s).hard_state = hsv) ∧
    optLogIdLeb (last_applied_state s).1 (get_initial_state s).last_log_id = true ∧
    optLogIdLeb (last_id_in_log s) (get_initial_state s).last_log_id = true ∧
    ((get_initial_state s).last_log_id = (last_applied_state s).1 ∨
      (get_initial_state s).last_log_id = last_id_in_log s) := by
  refine ⟨rfl, rfl, ?_, ?_, ?_, ?_, ?_⟩
  · intro hnone
    show (read_hard_state s).getD HardState.default = _
    rw [hnone]
    rfl
  · intro hsv hsome
    show (read_hard_state s).getD HardState.default = hsv
    rw [hsome]
    rfl
  · show optLogIdLeb (last_applied_state s).1
        (cmpMaxOpt (last_applied_state s).1 (last_id_in_log s)) = true
    simp only [cmpMaxOpt]
    by_cases hc : optLogIdLeb (last_applied_state s).1 (last_id_in_log s) = true
    · rw [if_pos hc]
      exact hc
    · rw [if_neg hc]
      exact optLogIdLeb_refl _
  · show optLogIdLeb (last_id_in_log s)
        (cmpMaxOpt (last_applied_state s).1 (last_id_in_log s)) = true
    simp only [cmpMaxOpt]
    by_cases hc : optLogIdLeb (last_applied_state s).1 (last_id_in_log s) = true
    · rw [if_pos hc]
      exact optLogIdLeb_refl _
    · rw [if_neg hc]
      rcases optLogIdLeb_total (last_applied_state s).1 (last_id_in_log s) with hx | hx
      · exact absurd hx hc
      · exact hx
  · show cmpMaxOpt (last_applied_state s).1 (last_id_in_log s) = _ ∨
        cmpMaxOpt (last_applied_state s).1 (last_id_in_log s) = _
    simp only [cmpMaxOpt]
    by_cases hc : optLogIdLeb (last_applied_state s).1 (last_id_in_log s) = true
    · rw [if_pos hc]
      exact Or.inr rfl
    · rw [if_neg hc]
      exact Or.inl rfl

/-- Claim C4: `first_known_log_id()` is the minimum of `last_applied` and the
log's first id when both exist, the one that exists when only one does, and
empty only when both are absent; in particular it bridges the compaction gap
of the spec's example (`last_applied` at index 100 against a first log id at
index 105). -/
theorem first_known_log_id_min (s : StorageState D M) :
    (first_known_log_id s = none ↔
      (last_applied_state s).1 = none ∧ (get_log_state s).1 = none) ∧
    ((last_applied_state s).1 = none → first_known_log_id s = (get_log_state s).1) ∧
    ((get_log_state s).1 = none → first_known_log_id s = (last_applied_state s).1) ∧
    (∀ a f, (last_applied_state s).1 = some a → (get_log_state s).1 = some f →
      ∃ m, first_known_log_id s = some m ∧ logIdLeb m a = true ∧ logIdLeb m f = true ∧
        (m = a ∨ m = f)) := by
  rcases hla : (last_applied_state s).1 with _ | a <;>
    rcases hf : (get_log_state s).1 with _ | f
  · simp [first_known_log_id, hla, hf]
  · simp [first_known_log_id, hla, hf]
  · simp [first_known_log_id, hla, hf]
  · have hfk : first_known_log_id s = cmpMinOpt (some f) (some a) := by
      simp [first_known_log_id, hla, hf]
    refine ⟨?_, ?_, ?_, ?_⟩
    · rw [hfk]
      simp only [cmpMinOpt]
      constructor
      · intro hmin
        by_cases hc : optLogIdLeb (some f) (some a) = true
        · rw [if_pos hc] at hmin
          exact Option.noConfusion hmin
        · rw [if_neg hc] at hmin
          exact Option.noConfusion hmin
      · rintro ⟨hcontra, -⟩
        exact Option.noConfusion hcontra
    · intro hcontra
      exact Option.noConfusion hcontra
    · intro hcontra
      exact Option.noConfusion hcontra
    · intro a' f' ha' hf'
      have haa : a = a' := Option.some.inj ha'
      have hff : f = f' := Option.some.inj hf'
      rw [hfk]
      simp only [cmpMinOpt, optLogIdLeb]
      by_cases hc : logIdLeb f a = true
      · rw [if_pos hc]
        exact ⟨f, rfl, by rw [← haa]; exact hc,
          by rw [← hff]; exact logIdLeb_refl f, Or.inr hff⟩
      · rw [if_neg hc]
        rcases logIdLeb_total f a with hx | hx
        · exact absurd hx hc
        · exact ⟨a, rfl, by rw [← haa]; exact logIdLeb_refl a,
            by rw [← hff]; exact hx, Or.inl haa⟩

theorem first_known_log_id_min_witness :
    (last_applied_state demoGap).1 = some { term := 2, index := 100 } ∧
      (get_log_state demoGap).1 = some { term := 2, index := 105 } ∧
      first_known_log_id demoGap = some { term := 2, index := 100 } := by
  refine ⟨rfl, rfl, ?_⟩
  obtain ⟨m, hm, hma, hmf, hor⟩ := (first_known_log_id_min demoGap).2.2.2
    { term := 2, index := 100 } { term := 2, index := 105 } rfl rfl
  rcases hor with hx | hx
  · rw [hm, hx]
  · subst hx
    exact absurd hma (by decide)

/-- Claim C7: `get_initial_state()` is deterministic in the underlying
primitive reads: two storage states that agree on `read_hard_state`,
`last_applied_state`, `get_log_state` and `try_get_log_entries` yield
identical `InitialState` values, so repeating the call without mutation
yields identical results. -/
theorem get_initial_state_deterministic (s1 s2 : StorageState D M)
    (h1 : read_hard_state s1 = read_hard_state s2)
    (h2 : last_applied_state s1 = last_applied_state s2)
    (h3 : get_log_state s1 = get_log_state s2)
    (h4 : ∀ start stop, try_get_log_entries s1 start stop = try_get_log_entries s2 start stop) :
    get_initial_state s1 = get_initial_state s2 := by
  have hscan : ∀ start e, scanLoop s1 start e = scanLoop s2 start e := by
    intro start e
    rw [scanLoop_eq_find, scanLoop_eq_find, h4]
  have hlm : ∀ since, last_membership_in_log s1 since = last_membership_in_log s2 since := by
    intro since
    simp only [last_membership_in_log, h3]
    cases (get_log_state s2).1 with
    | none => rfl
    | some first =>
      cases (get_log_state s2).2 with
      | none => rfl
      | some last => exact hscan _ _
  have hgm : get_membership s1 = get_membership s2 := by
    simp only [get_membership, h2, hlm]
  simp only [get_initial_state, last_id_in_log, h1, h2, h3, hgm]

theorem get_initial_state_deterministic_witness :
    get_initial_state demoC7 = get_initial_state demoC7 :=
  get_initial_state_deterministic demoC7 demoC7 rfl rfl rfl fun _ _ => rfl

/-- Claim C8: `try_get_log_entry(i)` is the single-entry range lookup
`try_get_log_entries(i..i+1)`: it returns the entry at index `i` when
present and an empty result — not an error — when absent. -/
theorem try_get_log_entry_single (s : StorageState D M) (i : Nat) (h : LogSorted s.log) :
    try_get_log_entry s i = (try_get_log_entries s i (i + 1)).getLast? ∧
    (∀ ent ∈ s.log, ent.log_id.index = i → try_get_log_entry s i = some ent) ∧
    ((∀ ent ∈ s.log, ent.log_id.index ≠ i) → try_get_log_entry s i = none) := by
  refine ⟨rfl, ?_, ?_⟩
  · intro ent hent hidx
    have hmem : ent ∈ try_get_log_entries s i (i + 1) :=
      mem_try_get_log_entries.mpr ⟨hent, by omega, by omega⟩
    have hne : try_get_log_entries s i (i + 1) ≠ [] := by
      intro hnil
      rw [hnil] at hmem
      exact absurd hmem (List.not_mem_nil ent)
    obtain ⟨b, hb⟩ := Option.isSome_iff_exists.mp (List.getLast?_isSome.mpr hne)
    have hbr := mem_try_get_log_entries.mp (List.mem_of_getLast?_eq_some hb)
    have hbe : b = ent := sorted_index_inj h hbr.1 hent (by omega)
    rw [try_get_log_entry, hb, hbe]
  · intro hall
    have hnil : try_get_log_entries s i (i + 1) = [] := by
      rw [try_get_log_entries, List.filter_eq_nil_iff]
      intro ent hent hp
      simp only [Bool.and_eq_true, decide_eq_true_eq] at hp
      exact hall ent hent (by omega)
    rw [try_get_log_entry, hnil]
    rfl

theorem try_get_log_entry_single_witness :
    LogSorted demoC8.log ∧
      try_get_log_entry demoC8 5 =
        some { log_id := { term := 2, index := 5 }, payload := EntryPayload.Normal 3 } :=
  ⟨by decide, (try_get_log_entry_single demoC8 5 (by decide)).2.1
    { log_id := { term := 2, index := 5 }, payload := EntryPayload.Normal 3 }
    (by decide) rfl⟩

/-- The defensive check of `get_log_entries` succeeds exactly when every
index it expects (inside the requested range and the known bounds) is present
in the log. -/
theorem check_iff (s : StorageState D M) (start stop : Nat) :
    check_range_matches_entries (get_log_state s).1 (get_log_state s).2 start stop
        (try_get_log_entries s start stop) = true ↔
      ∀ i, indexShouldExist s start stop i → ∃ ent ∈ s.log, ent.log_id.index = i := by
  cases hfo : (get_log_state s).1 with
  | none =>
    simp only [hfo, check_range_matches_entries]
    constructor
    · intro _ i hse
      simp only [indexShouldExist, hfo] at hse
      exact hse.2.2.elim
    · intro _
      trivial
  | some f =>
    cases hlo : (get_log_state s).2 with
    | none =>
      simp only [hfo, hlo, check_range_matches_entries]
      constructor
      · intro _ i hse
        simp only [indexShouldExist, hfo, hlo] at hse
        exact hse.2.2.elim
      · intro _
        trivial
    | some l =>
      simp only [hfo, hlo, check_range_matches_entries, List.all_eq_true]
      constructor
      · intro hall i hse
        simp only [indexShouldExist, hfo, hlo] at hse
        obtain ⟨h1, h2, h3, h4⟩ := hse
        have hx : i ∈ List.range' start (stop - start) :=
          List.mem_range'_1.mpr ⟨h1, by omega⟩
        have hcond := hall i hx
        simp only [Bool.or_eq_true, Bool.not_eq_true', List.any_eq_true,
          beq_iff_eq] at hcond
        rcases hcond with hfail | ⟨ent, hent, hidx⟩
        · simp [h3, h4] at hfail
        · exact ⟨ent, (mem_try_get_log_entries.mp hent).1, hidx⟩
      · intro hin x hx
        rw [List.mem_range'_1] at hx
        simp only [Bool.or_eq_true, Bool.not_eq_true', List.any_eq_true, beq_iff_eq]
        by_cases hbound : f.index ≤ x ∧ x ≤ l.index
        · obtain ⟨ent, hent, hidx⟩ := hin x (by
            simp only [indexShouldExist, hfo, hlo]
            exact ⟨hx.1, by omega, hbound.1, hbound.2⟩)
          right
          exact ⟨ent, mem_try_get_log_entries.mpr ⟨hent, by omega, by omega⟩, hidx⟩
        · left
          rw [← Bool.decide_and, decide_eq_false_iff_not]
          exact hbound

/-- Claim C5: `get_log_entries(range)` returns exactly the (silently gap
tolerating) `try_get_log_entries(range)` result when every index in the range
that should exist per the known log bounds is present, and fails with a
range-mismatch error when such an index is absent from the log. -/
theorem get_log_entries_strict (s : StorageState D M) (start stop : Nat) :
    (∀ ent, ent ∈ try_get_log_entries s start stop ↔
      ent ∈ s.log ∧ start ≤ ent.log_id.index ∧ ent.log_id.index < stop) ∧
    ((∀ i, indexShouldExist s start stop i → ∃ ent ∈ s.log, ent.log_id.index = i) →
      get_log_entries s start stop = Except.ok (try_get_log_entries s start stop)) ∧
    ((∃ i, indexShouldExist s start stop i ∧ ∀ ent ∈ s.log, ent.log_id.index ≠ i) →
      get_log_entries s start stop = Except.error (StorageError.rangeNotMatch start stop)) := by
  refine ⟨fun ent => mem_try_get_log_entries, ?_, ?_⟩
  · intro hall
    have hc := (check_iff s start stop).mpr hall
    simp only [get_log_entries, hc]
    rfl
  · rintro ⟨i, hse, habs⟩
    have hc : check_range_matches_entries (get_log_state s).1 (get_log_state s).2 start stop
        (try_get_log_entries s start stop) = false := by
      rw [Bool.eq_false_iff]
      intro htrue
      obtain ⟨ent, hent, hidx⟩ := (check_iff s start stop).mp htrue i hse
      exact habs ent hent hidx
    simp only [get_log_entries, hc]
    rfl

theorem get_log_entries_strict_witness :
    (∃ i, indexShouldExist demoC5 1 7 i ∧ ∀ ent ∈ demoC5.log, ent.log_id.index ≠ i) ∧
      get_log_entries demoC5 1 7 = Except.error (StorageError.rangeNotMatch 1 7) := by
  have hex : ∃ i, indexShouldExist demoC5 1 7 i ∧ ∀ ent ∈ demoC5.log, ent.log_id.index ≠ i := by
    refine ⟨3, ⟨by omega, by omega, ?_⟩, by decide⟩
    show (1 : Nat) ≤ 3 ∧ 3 ≤ 6
    omega
  exact ⟨hex, (get_log_entries_strict demoC5 1 7).2.2 hex⟩

end Openraft
